import Mathlib

/-!
Formal model of the subtitle-to-prose pipeline of a yt-dlp transcript server
(`app/services/transcript_service.py`).  The Python service selects a subtitle
variant by a fixed priority order, parses WEBVTT cue markup into cleaned text
segments, deduplicates caption-overlap repetition, and formats the result into
paragraphs with script-sensitive rules.  Every definition below is a direct
translation of the corresponding Python function; string operations are
modelled on `List Char` so that all definitions evaluate inside the kernel.
Regular-expression substitutions are modelled by equivalent explicit scans
(leftmost, non-overlapping, matching Python `re` semantics on the fragments
the service uses); the float literal `0.3` in the script-detection threshold
is modelled by the exact rational comparison `10 * count > 3 * length`.
-/

/-- Whitespace characters recognised by Python's `str.strip`, `str.split` and
the regex class used in `_clean_and_format_text` (ASCII subset, which covers
every character the service's inputs contain). -/
def isPySpace (c : Char) : Bool :=
  c = ' ' || c = '\t' || c = '\n' || c = '\r' || c = '\x0b' || c = '\x0c'

/-- Python `str.strip`: drop leading and trailing whitespace. -/
def pyStrip (cs : List Char) : List Char :=
  ((cs.dropWhile isPySpace).reverse.dropWhile isPySpace).reverse

/-- String-level wrapper for `pyStrip` (Python `str.strip`). -/
def stripStr (s : String) : String := ⟨pyStrip s.data⟩

/-- Python `str.split()` with no separator: split on whitespace runs,
returning no empty tokens.  Accumulator holds the current word reversed. -/
def pyWordsAux : List Char → List Char → List (List Char)
  | acc, [] => if acc = [] then [] else [acc.reverse]
  | acc, c :: rest =>
    if isPySpace c then
      if acc = [] then pyWordsAux [] rest else acc.reverse :: pyWordsAux [] rest
    else pyWordsAux (c :: acc) rest

/-- Python `str.split()` with no separator. -/
def pyWords (cs : List Char) : List (List Char) := pyWordsAux [] cs

/-- The whitespace-delimited tokens of a string, as strings. -/
def pyWordsStr (s : String) : List String := (pyWords s.data).map String.mk

/-- Join character lists with a separator (Python `sep.join`). -/
def joinSep (sep : List Char) : List (List Char) → List Char
  | [] => []
  | [w] => w
  | w :: v :: ws => w ++ sep ++ joinSep sep (v :: ws)

/-- Python `sep.join` on strings. -/
def joinSepStr (sep : String) (ws : List String) : String :=
  ⟨joinSep sep.data (ws.map String.data)⟩

/-- Python `' '.join`. -/
def joinSpaceStr (ws : List String) : String := joinSepStr " " ws

/-- The substitution `re.sub(r'\s+', ' ', text)`: every maximal whitespace run
becomes a single space. -/
def collapseSpaces : List Char → List Char
  | [] => []
  | [c] => if isPySpace c then [' '] else [c]
  | c :: d :: rest =>
    if isPySpace c then
      if isPySpace d then collapseSpaces (d :: rest)
      else ' ' :: collapseSpaces (d :: rest)
    else c :: collapseSpaces (d :: rest)

/-- String-level wrapper for `collapseSpaces`. -/
def collapseSpacesStr (s : String) : String := ⟨collapseSpaces s.data⟩

/-- Python `re.split` on a character class: split at every delimiter
character, keeping empty pieces.  Accumulator holds the current piece
reversed. -/
def splitOnPredAux (p : Char → Bool) : List Char → List Char → List (List Char)
  | acc, [] => [acc.reverse]
  | acc, c :: rest =>
    if p c then acc.reverse :: splitOnPredAux p [] rest
    else splitOnPredAux p (c :: acc) rest

/-- Python `re.split` on a character class. -/
def splitOnPred (p : Char → Bool) (cs : List Char) : List (List Char) :=
  splitOnPredAux p [] cs

/-- Substring test on character lists (Python's `needle in hay`). -/
def isInfixL (pat : List Char) : List Char → Bool
  | [] => pat.isEmpty
  | c :: rest => pat.isPrefixOf (c :: rest) || isInfixL pat rest

/-- Python `needle in hay` on strings. -/
def containsStr (needle hay : String) : Bool := isInfixL needle.data hay.data

/-- The duration formatter `_format_duration`: seconds-only below one minute,
minutes and seconds below one hour, else hours, minutes and seconds; integer
division and modulo, no zero padding. -/
def formatDuration (seconds : Nat) : String :=
  if seconds < 60 then toString seconds ++ "秒"
  else if seconds < 3600 then
    toString (seconds / 60) ++ "分" ++ toString (seconds % 60) ++ "秒"
  else
    toString (seconds / 3600) ++ "時間" ++ toString ((seconds % 3600) / 60) ++ "分"
      ++ toString (seconds % 60) ++ "秒"

/-- Membership in the Unicode ranges counted by `_is_japanese_text`:
hiragana (U+3040–U+309F), katakana (U+30A0–U+30FF), CJK ideographs
(U+4E00–U+9FAF). -/
def isJaChar (c : Char) : Bool :=
  (0x3040 ≤ c.toNat && c.toNat ≤ 0x309F) ||
  (0x30A0 ≤ c.toNat && c.toNat ≤ 0x30FF) ||
  (0x4E00 ≤ c.toNat && c.toNat ≤ 0x9FAF)

/-- Number of Japanese-script characters in a string (`re.findall` count in
`_is_japanese_text`). -/
def countJaChars (s : String) : Nat := s.data.countP isJaChar

/-- The script detector `_is_japanese_text`: true when Japanese-script
characters exceed 30% of all characters.  The Python comparison
`len(japanese_chars) > len(text) * 0.3` is modelled exactly rationally as
`10 * count > 3 * length`. -/
def isJapaneseText (s : String) : Bool :=
  s.data.length * 3 < countJaChars s * 10

/-- The substitution `re.sub(r'<[^>]+>', '', text)` in `_clean_vtt_text`:
drop every span from a `<` to the first following `>` provided at least one
character lies between them (leftmost, non-overlapping).  State `some acc`
means a `<` has been read and `acc` (reversed) holds the non-`>` characters
read since; an unclosed `<` is emitted verbatim together with the scanned
characters. -/
def removeTagsAux : Option (List Char) → List Char → List Char
  | none, [] => []
  | some acc, [] => '<' :: acc.reverse
  | none, c :: rest =>
    if c = '<' then removeTagsAux (some []) rest
    else c :: removeTagsAux none rest
  | some acc, c :: rest =>
    if c = '>' then
      if acc = [] then '<' :: '>' :: removeTagsAux none rest
      else removeTagsAux none rest
    else removeTagsAux (some (c :: acc)) rest

/-- First regex pass of `_clean_vtt_text`. -/
def removeTags (cs : List Char) : List Char := removeTagsAux none cs

/-- Character expected at position `k` (0-based, after the `<`) of the inline
timestamp tag pattern `\d{2}:\d{2}:\d{2}\.\d{3}>`. -/
def tsExpect : Nat → Char → Bool
  | 0, c => c.isDigit
  | 1, c => c.isDigit
  | 2, c => c = ':'
  | 3, c => c.isDigit
  | 4, c => c.isDigit
  | 5, c => c = ':'
  | 6, c => c.isDigit
  | 7, c => c.isDigit
  | 8, c => c = '.'
  | 9, c => c.isDigit
  | 10, c => c.isDigit
  | 11, c => c.isDigit
  | 12, c => c = '>'
  | _, _ => false

/-- The substitution `re.sub(r'<\d{2}:\d{2}:\d{2}\.\d{3}>', '', text)`,
as a one-character-per-step scan.  State `some (accRev, k)` means a `<` has
been read followed by `k` characters (held reversed in `accRev`) matching the
timestamp pattern so far; on a mismatch the buffered span is emitted verbatim
and the scan restarts at the mismatching character (the buffer cannot contain
another `<`, so no match is missed). -/
def removeTsTagsAux : Option (List Char × Nat) → List Char → List Char
  | none, [] => []
  | some (accRev, _), [] => '<' :: accRev.reverse
  | none, c :: rest =>
    if c = '<' then removeTsTagsAux (some ([], 0)) rest
    else c :: removeTsTagsAux none rest
  | some (accRev, k), c :: rest =>
    if tsExpect k c then
      if k = 12 then removeTsTagsAux none rest
      else removeTsTagsAux (some (c :: accRev, k + 1)) rest
    else
      '<' :: accRev.reverse ++
        (if c = '<' then removeTsTagsAux (some ([], 0)) rest
         else c :: removeTsTagsAux none rest)

/-- Second regex pass of `_clean_vtt_text`. -/
def removeTsTags (cs : List Char) : List Char := removeTsTagsAux none cs

/-- The substitution `re.sub(r'<c[^>]*>', '', text)`: drop spans starting
with `<c` up to the first following `>` (zero or more non-`>` characters
between). -/
def removeCTagsAux : Option (List Char) → List Char → List Char
  | none, [] => []
  | some acc, [] => '<' :: 'c' :: acc.reverse
  | none, '<' :: 'c' :: rest => removeCTagsAux (some []) rest
  | none, c :: rest => c :: removeCTagsAux none rest
  | some acc, c :: rest =>
    if c = '>' then removeCTagsAux none rest
    else removeCTagsAux (some (c :: acc)) rest

/-- Third regex pass of `_clean_vtt_text`. -/
def removeCTags (cs : List Char) : List Char := removeCTagsAux none cs

/-- The substitution `re.sub(r'</c>', '', text)`. -/
def removeCloseC : List Char → List Char
  | '<' :: '/' :: 'c' :: '>' :: rest => removeCloseC rest
  | c :: rest => c :: removeCloseC rest
  | [] => []

/-- The substitution `re.sub(r'♪.*?♪', '', text)`: remove non-greedy pairs of
music symbols; `.` does not cross a newline.  State `some acc` means a `♪`
has been read with `acc` (reversed) the characters since (none of which is a
`♪` or newline). -/
def removeMusicAux : Option (List Char) → List Char → List Char
  | none, [] => []
  | some acc, [] => '♪' :: acc.reverse
  | none, c :: rest =>
    if c = '♪' then removeMusicAux (some []) rest
    else c :: removeMusicAux none rest
  | some acc, c :: rest =>
    if c = '♪' then removeMusicAux none rest
    else if c = '\n' then '♪' :: acc.reverse ++ '\n' :: removeMusicAux none rest
    else removeMusicAux (some (c :: acc)) rest

/-- Music-symbol pass of `_clean_vtt_text`. -/
def removeMusicPairs (cs : List Char) : List Char := removeMusicAux none cs

/-- The substitution `re.sub(r'\[音楽\]', '', text)`. -/
def removeJaMusic : List Char → List Char
  | '[' :: '音' :: '楽' :: ']' :: rest => removeJaMusic rest
  | c :: rest => c :: removeJaMusic rest
  | [] => []

/-- The substitution `re.sub(r'\[Music\]', '', text)`. -/
def removeEnMusic : List Char → List Char
  | '[' :: 'M' :: 'u' :: 's' :: 'i' :: 'c' :: ']' :: rest => removeEnMusic rest
  | c :: rest => c :: removeEnMusic rest
  | [] => []

/-- The line cleaner `_clean_vtt_text`, applied to one raw subtitle text
line: strip tag markup, drop lines carrying `align:`/`position:` directives
entirely, remove music markers, and trim whitespace. -/
def cleanVttText (s : String) : String :=
  let t1 := removeCloseC (removeCTags (removeTsTags (removeTags s.data)))
  if isInfixL "align:".data t1 || isInfixL "position:".data t1 then ""
  else ⟨pyStrip (removeEnMusic (removeJaMusic (removeMusicPairs t1)))⟩

/-- The adjacent-duplicate collapse loop of `_clean_and_format_text`:
keep a word unless it equals the previous word seen. -/
def collapseGo [DecidableEq α] : Option α → List α → List α
  | _, [] => []
  | prev, w :: rest =>
    if prev = some w then collapseGo (some w) rest
    else w :: collapseGo (some w) rest

/-- Adjacent-duplicate collapse (`prev_word` starts as `None`). -/
def collapseAdjacent [DecidableEq α] (l : List α) : List α := collapseGo none l

/-- Lines 247–265 of `_clean_and_format_text`: collapse whitespace runs,
strip, split into words, drop words equal to their immediate predecessor and
rejoin with single spaces.  This is the deduplicated text handed to the
script-specific formatter. -/
def dedupText (text : String) : String :=
  joinSpaceStr (collapseAdjacent (pyWordsStr (stripStr (collapseSpacesStr text))))

/-- Sentence delimiters of `_format_japanese_text` (`re.split(r'[。！？]')`). -/
def jaDelim (c : Char) : Bool := c = '。' || c = '！' || c = '？'

/-- Sentence delimiters of `_format_english_text` (`re.split(r'[.!?]')`). -/
def enDelim (c : Char) : Bool := c = '.' || c = '!' || c = '?'

/-- Raw sentence pieces of the Japanese formatter. -/
def jaRawSentences (t : String) : List String :=
  (splitOnPred jaDelim t.data).map String.mk

/-- Raw sentence pieces of the English formatter. -/
def enRawSentences (t : String) : List String :=
  (splitOnPred enDelim t.data).map String.mk

/-- The sentence-final markers tested in `_format_japanese_text`; the Python
code tests `ending in sentence`, i.e. substring containment. -/
def jaEndings : List String := ["です", "ます", "でした", "ました", "だった", "である"]

/-- Whether a sentence contains one of the markers (Python `ending in sentence`). -/
def hasJaEnding (s : String) : Bool := jaEndings.any (fun m => containsStr m s)

/-- Paragraph grouping loop of `_format_japanese_text`: strip each piece,
skip empties, close the current paragraph once it holds 3 sentences or the
current sentence contains a marker; flush the trailing partial paragraph. -/
def japaneseGo : List String → List String → List (List String)
  | cur, [] => if cur = [] then [] else [cur]
  | cur, s :: rest =>
    let t := stripStr s
    if t = "" then japaneseGo cur rest
    else if 3 ≤ (cur ++ [t]).length ∨ hasJaEnding t then
      (cur ++ [t]) :: japaneseGo [] rest
    else japaneseGo (cur ++ [t]) rest

/-- The paragraphs (as sentence groups) built by `_format_japanese_text`. -/
def japaneseGroups (t : String) : List (List String) :=
  japaneseGo [] (jaRawSentences t)

/-- The formatter `_format_japanese_text`: paragraphs joined by one newline,
sentences inside a paragraph joined by `。` with a trailing `。`. -/
def formatJapaneseText (t : String) : String :=
  joinSepStr "\n" ((japaneseGroups t).map (fun g => joinSepStr "。" g ++ "。"))

/-- Python `sentence[0].upper() + sentence[1:]` (whole-string upper when the
sentence has a single character): uppercase the first character. -/
def capFirst : List Char → List Char
  | [] => []
  | c :: rest => c.toUpper :: rest

/-- String-level wrapper for `capFirst`. -/
def capFirstStr (s : String) : String := ⟨capFirst s.data⟩

/-- Paragraph grouping loop of `_format_english_text`: strip each piece, skip
empties, capitalize the first letter, close the current paragraph once it
holds 4 sentences; flush the trailing partial paragraph. -/
def englishGo : List String → List String → List (List String)
  | cur, [] => if cur = [] then [] else [cur]
  | cur, s :: rest =>
    let t := stripStr s
    if t = "" then englishGo cur rest
    else if 4 ≤ (cur ++ [capFirstStr t]).length then
      (cur ++ [capFirstStr t]) :: englishGo [] rest
    else englishGo (cur ++ [capFirstStr t]) rest

/-- The paragraphs (as sentence groups) built by `_format_english_text`. -/
def englishGroups (t : String) : List (List String) :=
  englishGo [] (enRawSentences t)

/-- The formatter `_format_english_text`: paragraphs joined by a blank line,
sentences inside a paragraph joined by `. ` with a trailing `.`. -/
def formatEnglishText (t : String) : String :=
  joinSepStr "\n\n" ((englishGroups t).map (fun g => joinSepStr ". " g ++ "."))

/-- The cleaner `_clean_and_format_text`: empty input stays empty, otherwise
deduplicate and hand the text to the formatter picked by script detection. -/
def cleanAndFormatText (text : String) : String :=
  if text = "" then ""
  else
    let t := dedupText text
    if isJapaneseText t then formatJapaneseText t else formatEnglishText t

/-- The sentences of a deduplicated text under the formatter's own
script-specific delimiter rule, trimmed, empty pieces dropped. -/
def sentencesByScript (t : String) : List String :=
  if isJapaneseText t then
    ((jaRawSentences t).map stripStr).filter (fun s => s ≠ "")
  else
    ((enRawSentences t).map stripStr).filter (fun s => s ≠ "")

/-- The non-empty trimmed sentences of a sentence-piece list. -/
def nonEmptyStripped (sents : List String) : List String :=
  (sents.map stripStr).filter (fun s => s ≠ "")

/-- Consume a `\d{2}:\d{2}:\d{2}\.\d{3}` timestamp from the front of a
character list, returning the remainder. -/
def timingTail : List Char → Option (List Char)
  | a1 :: a2 :: ':' :: b1 :: b2 :: ':' :: c1 :: c2 :: '.' :: d1 :: d2 :: d3 :: rest =>
    if a1.isDigit && a2.isDigit && b1.isDigit && b2.isDigit && c1.isDigit &&
       c2.isDigit && d1.isDigit && d2.isDigit && d3.isDigit then
      some rest
    else none
  | _ => none

/-- The timing-line test of `_extract_text_from_vtt`:
`re.match(r'\d{2}:\d{2}:\d{2}\.\d{3} --> \d{2}:\d{2}:\d{2}\.\d{3}', line)`
(anchored at the start, trailing characters unconstrained). -/
def isTimingLine (s : String) : Bool :=
  match timingTail s.data with
  | some (' ' :: '-' :: '-' :: '>' :: ' ' :: rest) => (timingTail rest).isSome
  | _ => false

/-- The header test of `_extract_text_from_vtt`: lines starting with
`WEBVTT`, `Kind:` or `Language:` are skipped. -/
def isHeaderLine (s : String) : Bool :=
  "WEBVTT".data.isPrefixOf s.data || "Kind:".data.isPrefixOf s.data ||
    "Language:".data.isPrefixOf s.data

/-- The inner text-collection loop of `_extract_text_from_vtt` starting at
line index `i`: collect cleaned non-empty text lines until a blank line, a
nested timing line (where the Python code decrements the cursor before
breaking) or the end of input.  The result's second component is the cursor
value at the break, bundled with the loop-progress bound `i ≤ j + 1` that the
cursor arithmetic guarantees (the decrement can step back at most one line,
which is what keeps the enclosing scan from looping forever). -/
def collectCue (ls : List String) (i : Nat) : List String × { j : Nat // i ≤ j + 1 } :=
  if h : i < ls.length then
    let t := stripStr (ls.getD i "")
    if t = "" then ([], ⟨i, by omega⟩)
    else if isTimingLine t then ([], ⟨i - 1, by omega⟩)
    else
      let r := collectCue ls (i + 1)
      ((if cleanVttText t = "" then r.1 else cleanVttText t :: r.1),
        ⟨r.2.val, by have hb := r.2.property; omega⟩)
  else ([], ⟨i, by omega⟩)
termination_by ls.length - i
decreasing_by
· omega

/-- Python `if text_lines: ... if segment_text: text_segments.append(...)`:
a collected cue contributes its lines joined by single spaces, provided the
line list and the joined text are non-empty. -/
def flushList (ts : List String) : List String :=
  if ts ≠ [] then (if joinSpaceStr ts ≠ "" then [joinSpaceStr ts] else []) else []

/-- The outer scan of `_extract_text_from_vtt` over the line array: skip
header and plain lines, and at each timing line collect the cue's text and
resume after the inner loop's final cursor. -/
def extractLoop (ls : List String) (i : Nat) : List String :=
  if h : i < ls.length then
    let t := stripStr (ls.getD i "")
    if isHeaderLine t then extractLoop ls (i + 1)
    else if isTimingLine t then
      flushList (collectCue ls (i + 1)).1 ++
        extractLoop ls ((collectCue ls (i + 1)).2.val + 1)
    else extractLoop ls (i + 1)
  else []
termination_by ls.length - i
decreasing_by
all_goals first
| omega
| (have hb := (collectCue ls (i + 1)).2.property
   omega)

/-- Python `vtt_content.split('\n')`. -/
def linesOf (s : String) : List String :=
  (splitOnPred (fun c => c = '\n') s.data).map String.mk

/-- The ordered cue segments `_extract_text_from_vtt` collects from a raw
VTT string before joining and formatting. -/
def segmentsOfVtt (vtt : String) : List String := extractLoop (linesOf vtt) 0

/-- The function `_extract_text_from_vtt`: collect segments, join them with
single spaces and hand the result to `_clean_and_format_text`. -/
def extractTextFromVtt (vtt : String) : String :=
  cleanAndFormatText (joinSpaceStr (segmentsOfVtt vtt))

/-- Structural restatement of the cue scan: one pass over the line list with
an explicit in-cue state (`some acc` holds the cleaned lines of the current
cue).  It is proved equal to `extractLoop` below and, being structurally
recursive, evaluates inside the kernel. -/
def vttScan : Option (List String) → List String → List String
  | none, [] => []
  | some acc, [] => flushList acc
  | none, l :: rest =>
    let t := stripStr l
    if isHeaderLine t then vttScan none rest
    else if isTimingLine t then vttScan (some []) rest
    else vttScan none rest
  | some acc, l :: rest =>
    let t := stripStr l
    if t = "" then flushList acc ++ vttScan none rest
    else if isTimingLine t then flushList acc ++ vttScan (some []) rest
    else vttScan (some (acc ++ (if cleanVttText t = "" then [] else [cleanVttText t]))) rest

/-- The priority order of `_parse_subtitle_file`. -/
def priorityOrder : List String := ["manual_ja", "auto_ja", "manual_en", "auto_en"]

/-- The selection loop of `_parse_subtitle_file`: walk the priority order and
return the first present variant, its kind (`manual` when the key contains
`manual`) and its display language label (Japanese when the key contains
`ja`). -/
def selectFromPriority (m : String → Option String) : List String → Option (String × String × String)
  | [] => none
  | k :: rest =>
    match m k with
    | some v =>
      some (v, (if containsStr "manual" k then "manual" else "auto"),
        (if containsStr "ja" k then "日本語" else "英語"))
    | none => selectFromPriority m rest

/-- Variant selection on a variant set represented as an association list
(a Python dict together with its insertion order); only key lookups are
performed, exactly as in `_parse_subtitle_file`. -/
def parseSubtitleSelect (vs : List (String × String)) : Option (String × String × String) :=
  selectFromPriority (fun k => vs.lookup k) priorityOrder

/-- The filename classification of `_find_subtitle_files` (substring tests,
in the source's `if`/`elif` order). -/
def classifyFile (name : String) : Option String :=
  if containsStr ".ja.vtt" name then some "manual_ja"
  else if containsStr ".en.vtt" name then some "manual_en"
  else if containsStr ".ja.auto.vtt" name then some "auto_ja"
  else if containsStr ".en.auto.vtt" name then some "auto_en"
  else none

/-- Python dict assignment `d[k] = v`: replace the value of an existing key
in place, else append the binding. -/
def insertKV (vs : List (String × String)) (k v : String) : List (String × String) :=
  if (vs.lookup k).isSome then
    vs.map (fun p => if p.1 = k then (k, v) else p)
  else vs ++ [(k, v)]

/-- The variant set `_find_subtitle_files` builds from the discovered
subtitle files, each given as `(filename, raw VTT content)`. -/
def buildVariantSet (files : List (String × String)) : List (String × String) :=
  files.foldl
    (fun vs f =>
      match classifyFile f.1 with
      | some k => insertKV vs k f.2
      | none => vs)
    []

/-- The two terminal failures of the pipeline: `_find_subtitle_files` raises
when no subtitle file was produced (spec name `NoSubtitlesFound`), and
`_parse_subtitle_file` raises when no variant matches the priority order
(spec name `NoSubtitleAvailable`). -/
inductive SubtitleError where
  | noSubtitlesFound : SubtitleError
  | noSubtitleAvailable : SubtitleError
deriving DecidableEq

/-- The record `_parse_subtitle_file` returns: extracted text, display
language, and variant kind (the source dict's `text`/`language`/`type`). -/
structure SubtitleData where
  text : String
  language : String
  kind : String
deriving DecidableEq

/-- The function `_find_subtitle_files`: build the variant set and fail with
`NoSubtitlesFound` when it is empty. -/
def findSubtitleFiles (files : List (String × String)) : Except SubtitleError (List (String × String)) :=
  let vs := buildVariantSet files
  if vs = [] then Except.error SubtitleError.noSubtitlesFound else Except.ok vs

/-- The function `_parse_subtitle_file`: select a variant by priority, fail
with `NoSubtitleAvailable` when none matches, else extract and format the
selected content. -/
def parseSubtitleFile (vs : List (String × String)) : Except SubtitleError SubtitleData :=
  match parseSubtitleSelect vs with
  | none => Except.error SubtitleError.noSubtitleAvailable
  | some (content, kd, lang) => Except.ok ⟨extractTextFromVtt content, lang, kd⟩

/-- The subtitle-to-prose pipeline of `extract_transcript` restricted to its
pure core: discovered files in, transcript data or terminal failure out. -/
def transcriptPipeline (files : List (String × String)) : Except SubtitleError SubtitleData :=
  match findSubtitleFiles files with
  | Except.error e => Except.error e
  | Except.ok vs => parseSubtitleFile vs

/-- Marker test following the specification sentence for the Japanese
paragraph rule, which requires the sentence to END with a marker
(`_format_japanese_text` itself tests substring containment instead). -/
def hasJaEndingSuffix (s : String) : Bool :=
  jaEndings.any (fun m => m.data.isSuffixOf s.data)

/-- Paragraph grouping as the specification sentence describes it: close a
paragraph at 3 sentences or when the sentence ends with a marker. -/
def japaneseGoEndsWith : List String → List String → List (List String)
  | cur, [] => if cur = [] then [] else [cur]
  | cur, s :: rest =>
    let t := stripStr s
    if t = "" then japaneseGoEndsWith cur rest
    else if 3 ≤ (cur ++ [t]).length ∨ hasJaEndingSuffix t then
      (cur ++ [t]) :: japaneseGoEndsWith [] rest
    else japaneseGoEndsWith (cur ++ [t]) rest

/-- Japanese formatting under the specification's ends-with reading of the
marker rule. -/
def formatJapaneseTextEndsWith (t : String) : String :=
  joinSepStr "\n"
    ((japaneseGoEndsWith [] (jaRawSentences t)).map (fun g => joinSepStr "。" g ++ "。"))

/-- End-to-end scenario A of the specification: two consecutive cues whose
caption overlap repeats the word `dark`. -/
def scenarioVtt : String :=
  "WEBVTT\n\n00:00:00.000 --> 00:00:01.000\nit was a dark\n\n00:00:01.000 --> 00:00:02.000\ndark and stormy night\n"

lemma drop_getD_cons : ∀ (ls : List String) (i : Nat), i < ls.length →
    ls.drop i = ls.getD i "" :: ls.drop (i + 1) := by
  intro ls
  induction ls with
  | nil => intro i h; simp at h
  | cons a t ih =>
    intro i h
    cases i with
    | zero => simp
    | succ j =>
      have hj : j < t.length := by simpa using h
      simpa using ih j hj

lemma timingTail_digit_head {cs r : List Char} (h : timingTail cs = some r) :
    ∃ c cs2, cs = c :: cs2 ∧ c.isDigit = true := by
  unfold timingTail at h
  split at h
  case _ a1 a2 b1 b2 c1 c2 d1 d2 d3 rest =>
    split at h
    case isTrue hd =>
      refine ⟨a1, _, rfl, ?_⟩
      simp only [Bool.and_eq_true] at hd
      exact hd.1.1.1.1.1.1.1.1
    case isFalse => exact absurd h (by simp)
  case _ => exact absurd h (by simp)

lemma isTimingLine_head {s : String} (h : isTimingLine s = true) :
    ∃ c cs2, s.data = c :: cs2 ∧ c.isDigit = true := by
  unfold isTimingLine at h
  split at h
  case _ r a hr => exact timingTail_digit_head hr
  case _ => simp at h

lemma timing_not_header {s : String} (h : isTimingLine s = true) :
    isHeaderLine s = false := by
  obtain ⟨c, cs2, hdata, hdig⟩ := isTimingLine_head h
  have hW : c ≠ 'W' := by rintro rfl; simp [Char.isDigit] at hdig
  have hK : c ≠ 'K' := by rintro rfl; simp [Char.isDigit] at hdig
  have hL : c ≠ 'L' := by rintro rfl; simp [Char.isDigit] at hdig
  unfold isHeaderLine
  rw [hdata]
  simp only [List.isPrefixOf, Bool.or_eq_false_iff, Bool.and_eq_false_iff]
  refine ⟨⟨?_, ?_⟩, ?_⟩ <;> left <;> simp [String.data] <;>
    first
    | (intro hc; exact hW hc.symm)
    | (intro hc; exact hK hc.symm)
    | (intro hc; exact hL hc.symm)

lemma collectCue_out_of_ge (ls : List String) (i : Nat) (h : ls.length ≤ i) :
    collectCue ls i = ([], ⟨i, by omega⟩) := by
  rw [collectCue, dif_neg (by omega)]

lemma collectCue_scan : ∀ (n : Nat) (ls : List String) (i : Nat) (acc : List String),
    ls.length - i ≤ n → 1 ≤ i →
    vttScan (some acc) (ls.drop i) =
      flushList (acc ++ (collectCue ls i).1) ++
        vttScan none (ls.drop ((collectCue ls i).2.val + 1)) := by
  intro n
  induction n with
  | zero =>
    intro ls i acc hn hi
    have hge : ls.length ≤ i := by omega
    rw [collectCue_out_of_ge ls i hge]
    rw [List.drop_eq_nil_of_le hge, List.drop_eq_nil_of_le (by simp; omega)]
    simp [vttScan]
  | succ m ih =>
    intro ls i acc hn hi
    by_cases h : i < ls.length
    · set l0 := ls.getD i "" with hl0
      have hdrop : ls.drop i = l0 :: ls.drop (i + 1) := drop_getD_cons ls i h
      rw [hdrop, collectCue, dif_pos h]
      rw [← hl0]
      by_cases hb : stripStr l0 = ""
      · simp only [if_pos hb]
        simp [vttScan, hb]
      · by_cases ht : isTimingLine (stripStr l0)
        · simp only [if_neg hb, if_pos ht]
          have hi1 : i - 1 + 1 = i := by omega
          simp only [hi1]
          rw [hdrop]
          simp [vttScan, hb, ht, timing_not_header ht]
        · simp only [if_neg hb, if_neg ht]
          have step : vttScan (some acc) (l0 :: ls.drop (i + 1)) =
              vttScan (some (acc ++ (if cleanVttText (stripStr l0) = ""
                then [] else [cleanVttText (stripStr l0)]))) (ls.drop (i + 1)) := by
            by_cases hc : cleanVttText (stripStr l0) = "" <;>
              simp [vttScan, hb, ht, hc]
          rw [step, ih ls (i + 1) _ (by omega) (by omega)]
          by_cases hc : cleanVttText (stripStr l0) = "" <;>
            simp [hc, List.append_assoc]
    · have hge : ls.length ≤ i := by omega
      rw [collectCue_out_of_ge ls i hge]
      rw [List.drop_eq_nil_of_le hge, List.drop_eq_nil_of_le (by simp; omega)]
      simp [vttScan]

lemma extractLoop_scan : ∀ (n : Nat) (ls : List String) (i : Nat),
    ls.length - i ≤ n → extractLoop ls i = vttScan none (ls.drop i) := by
  intro n
  induction n with
  | zero =>
    intro ls i hn
    rw [extractLoop, dif_neg (by omega), List.drop_eq_nil_of_le (by omega)]
    simp [vttScan]
  | succ m ih =>
    intro ls i hn
    by_cases h : i < ls.length
    · set l0 := ls.getD i "" with hl0
      have hdrop : ls.drop i = l0 :: ls.drop (i + 1) := drop_getD_cons ls i h
      rw [hdrop, extractLoop, dif_pos h]
      rw [← hl0]
      by_cases hh : isHeaderLine (stripStr l0)
      · simp only [if_pos hh]
        rw [ih ls (i + 1) (by omega)]
        simp [vttScan, hh]
      · by_cases ht : isTimingLine (stripStr l0)
        · simp only [if_neg hh, if_pos ht]
          have hcs := collectCue_scan (ls.length - (i + 1)) ls (i + 1) []
            (by omega) (by omega)
          have hj := (collectCue ls (i + 1)).2.property
          have hrec : extractLoop ls ((collectCue ls (i + 1)).2.val + 1) =
              vttScan none (ls.drop ((collectCue ls (i + 1)).2.val + 1)) := by
            apply ih
            omega
          rw [hrec]
          simp only [vttScan, hh, ht, if_true, if_false]
          rw [hcs]
          simp
        · simp only [if_neg hh, if_neg ht]
          rw [ih ls (i + 1) (by omega)]
          simp [vttScan, hh, ht]
    · rw [extractLoop, dif_neg (by omega), List.drop_eq_nil_of_le (by omega)]
      simp [vttScan]

lemma segmentsOfVtt_eq_scan (vtt : String) :
    segmentsOfVtt vtt = vttScan none (linesOf vtt) := by
  unfold segmentsOfVtt
  rw [extractLoop_scan (linesOf vtt).length (linesOf vtt) 0 (by omega)]
  simp

lemma pyWordsAux_word : ∀ (w : List Char), (∀ c ∈ w, isPySpace c = false) →
    ∀ (acc l : List Char), pyWordsAux acc (w ++ l) = pyWordsAux (w.reverse ++ acc) l := by
  intro w
  induction w with
  | nil => intro _ acc l; simp
  | cons c w' ih =>
    intro hns acc l
    have hc : isPySpace c = false := hns c (by simp)
    have step : pyWordsAux acc ((c :: w') ++ l) = pyWordsAux (c :: acc) (w' ++ l) := by
      simp only [List.cons_append, pyWordsAux, hc, Bool.false_eq_true, if_false]
      rfl
    rw [step, ih (fun d hd => hns d (by simp [hd])) (c :: acc) l]
    simp

lemma words_join : ∀ (ws : List (List Char)),
    (∀ w ∈ ws, w ≠ [] ∧ ∀ c ∈ w, isPySpace c = false) →
    pyWords (joinSep [' '] ws) = ws := by
  intro ws
  induction ws with
  | nil => intro _; rfl
  | cons w vs ih =>
    intro hws
    obtain ⟨hw, hns⟩ := hws w (by simp)
    cases vs with
    | nil =>
      show pyWordsAux [] (joinSep [' '] [w]) = [w]
      have : joinSep [' '] [w] = w ++ [] := by simp [joinSep]
      rw [this, pyWordsAux_word w hns [] []]
      simp [pyWordsAux, hw]
    | cons v vs' =>
      show pyWordsAux [] (joinSep [' '] (w :: v :: vs')) = w :: v :: vs'
      have hj : joinSep [' '] (w :: v :: vs') = w ++ (' ' :: joinSep [' '] (v :: vs')) := by
        simp [joinSep]
      rw [hj, pyWordsAux_word w hns [] _]
      have hsp : isPySpace ' ' = true := by decide
      simp only [List.append_nil, pyWordsAux, hsp, if_true]
      rw [if_neg (by simp [hw])]
      rw [List.reverse_reverse]
      exact congrArg (w :: ·) (ih (fun u hu => hws u (by simp [hu])))

lemma pyWordsAux_good : ∀ (l acc : List Char), (∀ c ∈ acc, isPySpace c = false) →
    ∀ w ∈ pyWordsAux acc l, w ≠ [] ∧ ∀ c ∈ w, isPySpace c = false := by
  intro l
  induction l with
  | nil =>
    intro acc hacc w hw
    by_cases ha : acc = []
    · simp [pyWordsAux, ha] at hw
    · simp [pyWordsAux, ha] at hw
      subst hw
      refine ⟨by simpa using ha, ?_⟩
      intro c hc
      exact hacc c (by simpa using hc)
  | cons c rest ih =>
    intro acc hacc w hw
    by_cases hc : isPySpace c = true
    · by_cases ha : acc = []
      · simp only [pyWordsAux, hc, if_true, ha, if_pos rfl] at hw
        exact ih [] (by simp) w hw
      · simp only [pyWordsAux, hc, if_true, if_neg ha] at hw
        rcases List.mem_cons.mp hw with hw1 | hw2
        · subst hw1
          refine ⟨by simpa using ha, ?_⟩
          intro d hd
          exact hacc d (by simpa using hd)
        · exact ih [] (by simp) w hw2
    · simp only [pyWordsAux, hc, Bool.false_eq_true, if_false] at hw
      refine ih (c :: acc) ?_ w hw
      intro d hd
      rcases List.mem_cons.mp hd with hd1 | hd2
      · subst hd1; simpa using hc
      · exact hacc d hd2

lemma pyWords_good (cs : List Char) :
    ∀ w ∈ pyWords cs, w ≠ [] ∧ ∀ c ∈ w, isPySpace c = false :=
  pyWordsAux_good cs [] (by simp)

lemma collapseGo_sublist [DecidableEq α] : ∀ (l : List α) (prev : Option α),
    (collapseGo prev l).Sublist l := by
  intro l
  induction l with
  | nil => intro prev; simp [collapseGo]
  | cons w rest ih =>
    intro prev
    by_cases hp : prev = some w
    · simp only [collapseGo, if_pos hp]
      exact (ih (some w)).cons w
    · simp only [collapseGo, if_neg hp]
      exact (ih (some w)).cons₂ w

lemma collapseGo_chain [DecidableEq α] : ∀ (l : List α) (prev : Option α),
    List.Chain' (fun a b => a ≠ b) (collapseGo prev l) ∧
      ∀ x, (collapseGo prev l).head? = some x → some x ≠ prev := by
  intro l
  induction l with
  | nil => intro prev; simp [collapseGo]
  | cons w rest ih =>
    intro prev
    by_cases hp : prev = some w
    · simp only [collapseGo, if_pos hp]
      exact ⟨(ih (some w)).1, fun x hx => by rw [hp]; exact (ih (some w)).2 x hx⟩
    · simp only [collapseGo, if_neg hp]
      constructor
      · rw [List.chain'_cons']
        refine ⟨?_, (ih (some w)).1⟩
        intro y hy
        have := (ih (some w)).2 y hy
        intro hwy
        exact this (by rw [hwy])
      · intro x hx
        simp only [List.head?_cons, Option.some_inj] at hx
        subst hx
        exact fun hc => hp hc.symm

lemma pyWordsStr_joinSpace (us : List String)
    (h : ∀ u ∈ us, u.data ≠ [] ∧ ∀ c ∈ u.data, isPySpace c = false) :
    pyWordsStr (joinSpaceStr us) = us := by
  unfold pyWordsStr joinSpaceStr joinSepStr
  have hws : pyWords (joinSep " ".data (us.map String.data)) = us.map String.data := by
    have : (" " : String).data = [' '] := rfl
    rw [this]
    apply words_join
    intro w hw
    rcases List.mem_map.mp hw with ⟨u, hu, rfl⟩
    exact h u hu
  rw [show (String.mk (joinSep " ".data (us.map String.data))).data =
      joinSep " ".data (us.map String.data) from rfl]
  rw [hws, List.map_map]
  have hid : String.mk ∘ String.data = id := funext (fun s => by cases s; rfl)
  rw [hid, List.map_id]

lemma dedupText_words (s : String) :
    pyWordsStr (dedupText s) =
      collapseAdjacent (pyWordsStr (stripStr (collapseSpacesStr s))) := by
  unfold dedupText
  apply pyWordsStr_joinSpace
  intro u hu
  have hmem : u ∈ pyWordsStr (stripStr (collapseSpacesStr s)) :=
    (collapseGo_sublist _ none).mem hu
  rcases List.mem_map.mp hmem with ⟨w, hw, rfl⟩
  obtain ⟨hne, hns⟩ := pyWords_good _ w hw
  exact ⟨by simpa using hne, by simpa using hns⟩

lemma dedupText_chain (s : String) :
    List.Chain' (fun a b => a ≠ b) (pyWordsStr (dedupText s)) := by
  rw [dedupText_words]
  exact (collapseGo_chain _ none).1

lemma nonEmptyStripped_nil : nonEmptyStripped [] = [] := rfl

lemma nonEmptyStripped_cons (s : String) (rest : List String) :
    nonEmptyStripped (s :: rest) =
      if stripStr s = "" then nonEmptyStripped rest
      else stripStr s :: nonEmptyStripped rest := by
  by_cases h : stripStr s = "" <;> simp [nonEmptyStripped, h]

lemma japaneseGo_flatten : ∀ (sents cur : List String),
    (japaneseGo cur sents).flatten = cur ++ nonEmptyStripped sents := by
  intro sents
  induction sents with
  | nil =>
    intro cur
    by_cases h : cur = [] <;> simp [japaneseGo, h, nonEmptyStripped_nil]
  | cons s rest ih =>
    intro cur
    rw [nonEmptyStripped_cons]
    by_cases hb : stripStr s = ""
    · simp only [japaneseGo, hb, if_pos rfl, if_true]
      exact ih cur
    · simp only [japaneseGo, if_neg hb]
      by_cases hcl : 3 ≤ (cur ++ [stripStr s]).length ∨ hasJaEnding (stripStr s)
      · rw [if_pos hcl]
        simp only [List.flatten_cons]
        rw [ih []]
        simp [hb, List.append_assoc]
      · rw [if_neg hcl]
        rw [ih (cur ++ [stripStr s])]
        simp [hb, List.append_assoc]

lemma englishGo_flatten : ∀ (sents cur : List String),
    (englishGo cur sents).flatten = cur ++ (nonEmptyStripped sents).map capFirstStr := by
  intro sents
  induction sents with
  | nil =>
    intro cur
    by_cases h : cur = [] <;> simp [englishGo, h, nonEmptyStripped_nil]
  | cons s rest ih =>
    intro cur
    rw [nonEmptyStripped_cons]
    by_cases hb : stripStr s = ""
    · simp only [englishGo, hb, if_pos rfl, if_true]
      exact ih cur
    · simp only [englishGo, if_neg hb]
      by_cases hcl : 4 ≤ (cur ++ [capFirstStr (stripStr s)]).length
      · rw [if_pos hcl]
        simp only [List.flatten_cons]
        rw [ih []]
        simp [hb, List.append_assoc]
      · rw [if_neg hcl]
        rw [ih (cur ++ [capFirstStr (stripStr s)])]
        simp [hb, List.append_assoc]

lemma japaneseGo_groups_ne : ∀ (sents cur : List String),
    ∀ g ∈ japaneseGo cur sents, g ≠ [] := by
  intro sents
  induction sents with
  | nil =>
    intro cur g hg
    by_cases h : cur = []
    · simp [japaneseGo, h] at hg
    · simp [japaneseGo, h] at hg
      subst hg
      exact h
  | cons s rest ih =>
    intro cur g hg
    by_cases hb : stripStr s = ""
    · exact ih cur g (by simpa [japaneseGo, hb] using hg)
    · simp only [japaneseGo, if_neg hb] at hg
      by_cases hcl : 3 ≤ (cur ++ [stripStr s]).length ∨ hasJaEnding (stripStr s)
      · rw [if_pos hcl] at hg
        rcases List.mem_cons.mp hg with h1 | h2
        · subst h1; simp
        · exact ih [] g h2
      · rw [if_neg hcl] at hg
        exact ih (cur ++ [stripStr s]) g hg

lemma englishGo_groups_ne : ∀ (sents cur : List String),
    ∀ g ∈ englishGo cur sents, g ≠ [] := by
  intro sents
  induction sents with
  | nil =>
    intro cur g hg
    by_cases h : cur = []
    · simp [englishGo, h] at hg
    · simp [englishGo, h] at hg
      subst hg
      exact h
  | cons s rest ih =>
    intro cur g hg
    by_cases hb : stripStr s = ""
    · exact ih cur g (by simpa [englishGo, hb] using hg)
    · simp only [englishGo, if_neg hb] at hg
      by_cases hcl : 4 ≤ (cur ++ [capFirstStr (stripStr s)]).length
      · rw [if_pos hcl] at hg
        rcases List.mem_cons.mp hg with h1 | h2
        · subst h1; simp
        · exact ih [] g h2
      · rw [if_neg hcl] at hg
        exact ih (cur ++ [capFirstStr (stripStr s)]) g hg

lemma japaneseGo_groups_shape : ∀ (sents cur : List String),
    cur.length ≤ 2 → (∀ t ∈ cur, hasJaEnding t = false) →
    ∀ g ∈ japaneseGo cur sents,
      g.length ≤ 3 ∧ ∀ j, j + 1 < g.length → hasJaEnding (g.getD j "") = false := by
  intro sents
  induction sents with
  | nil =>
    intro cur hlen hmk g hg
    by_cases h : cur = []
    · simp [japaneseGo, h] at hg
    · simp only [japaneseGo, if_neg h, List.mem_singleton] at hg
      subst hg
      refine ⟨by omega, ?_⟩
      intro j hj
      have hjl : j < g.length := by omega
      rw [List.getD_eq_getElem g "" hjl]
      exact hmk _ (List.getElem_mem hjl)
  | cons s rest ih =>
    intro cur hlen hmk g hg
    by_cases hb : stripStr s = ""
    · exact ih cur hlen hmk g (by simpa [japaneseGo, hb] using hg)
    · simp only [japaneseGo, if_neg hb] at hg
      by_cases hcl : 3 ≤ (cur ++ [stripStr s]).length ∨ hasJaEnding (stripStr s)
      · rw [if_pos hcl] at hg
        rcases List.mem_cons.mp hg with h1 | h2
        · subst h1
          refine ⟨by simp; omega, ?_⟩
          intro j hj
          have hjc : j < cur.length := by simp at hj; omega
          rw [List.getD_append _ _ _ _ hjc, List.getD_eq_getElem cur "" hjc]
          exact hmk _ (List.getElem_mem hjc)
        · exact ih [] (by simp) (by simp) g h2
      · rw [if_neg hcl] at hg
        push_neg at hcl
        refine ih (cur ++ [stripStr s]) (by simp at hcl ⊢; omega) ?_ g hg
        intro t ht
        rcases List.mem_append.mp ht with h1 | h2
        · exact hmk t h1
        · rw [List.mem_singleton.mp h2]
          simpa using hcl.2

lemma japaneseGo_closed : ∀ (sents cur : List String),
    cur.length ≤ 2 →
    ∀ i, i + 1 < (japaneseGo cur sents).length →
      ((japaneseGo cur sents).getD i []).length = 3 ∨
        hasJaEnding (((japaneseGo cur sents).getD i []).getLastD "") = true := by
  intro sents
  induction sents with
  | nil =>
    intro cur _ i hi
    by_cases h : cur = []
    · simp [japaneseGo, h] at hi
    · simp only [japaneseGo, if_neg h, List.length_singleton] at hi
      omega
  | cons s rest ih =>
    intro cur hlen i hi
    by_cases hb : stripStr s = ""
    · simp only [japaneseGo, hb, if_pos rfl, if_true] at hi ⊢
      exact ih cur hlen i hi
    · simp only [japaneseGo, if_neg hb] at hi ⊢
      by_cases hcl : 3 ≤ (cur ++ [stripStr s]).length ∨ hasJaEnding (stripStr s)
      · rw [if_pos hcl] at hi ⊢
        cases i with
        | zero =>
          simp only [List.getD_cons_zero]
          rcases hcl with h3 | hmk
          · left
            simp at h3 ⊢
            omega
          · right
            rw [List.getLastD_concat]
            exact hmk
        | succ k =>
          simp only [List.getD_cons_succ]
          apply ih [] (by simp) k
          simp at hi
          omega
      · rw [if_neg hcl] at hi ⊢
        apply ih (cur ++ [stripStr s]) ?_ i hi
        push_neg at hcl
        simp at hcl ⊢
        omega

lemma removeCloseC_cons_ne (c : Char) (rest : List Char) (hc : c ≠ '<') :
    removeCloseC (c :: rest) = c :: removeCloseC rest := by
  rw [removeCloseC.eq_def]
  split
  · rename_i heq
    injection heq with h1 _
    exact absurd h1 hc
  · rename_i heq
    injection heq with h1 h2
    subst h1
    subst h2
    rfl
  · rename_i heq
    simp at heq

lemma removeJaMusic_cons_ne (c : Char) (rest : List Char) (hc : c ≠ '[') :
    removeJaMusic (c :: rest) = c :: removeJaMusic rest := by
  rw [removeJaMusic.eq_def]
  split
  · rename_i heq
    injection heq with h1 _
    exact absurd h1 hc
  · rename_i heq
    injection heq with h1 h2
    subst h1
    subst h2
    rfl
  · rename_i heq
    simp at heq

lemma removeEnMusic_cons_ne (c : Char) (rest : List Char) (hc : c ≠ '[') :
    removeEnMusic (c :: rest) = c :: removeEnMusic rest := by
  rw [removeEnMusic.eq_def]
  split
  · rename_i heq
    injection heq with h1 _
    exact absurd h1 hc
  · rename_i heq
    injection heq with h1 h2
    subst h1
    subst h2
    rfl
  · rename_i heq
    simp at heq

lemma removeCTagsAux_cons_ne (c : Char) (rest : List Char) (hc : c ≠ '<') :
    removeCTagsAux none (c :: rest) = c :: removeCTagsAux none rest := by
  rw [removeCTagsAux.eq_def]
  split <;> simp_all

lemma removeTags_id : ∀ (cs : List Char), '<' ∉ cs → removeTagsAux none cs = cs := by
  intro cs
  induction cs with
  | nil => intro _; rfl
  | cons c rest ih =>
    intro h
    have hc : ¬ c = '<' := fun hx => h (by rw [hx]; exact List.mem_cons_self '<' rest)
    simp only [removeTagsAux, if_neg hc]
    rw [ih (fun hm => h (List.mem_cons_of_mem c hm))]

lemma removeTsTags_id : ∀ (cs : List Char), '<' ∉ cs → removeTsTagsAux none cs = cs := by
  intro cs
  induction cs with
  | nil => intro _; rfl
  | cons c rest ih =>
    intro h
    have hc : ¬ c = '<' := fun hx => h (by rw [hx]; exact List.mem_cons_self '<' rest)
    simp only [removeTsTagsAux, if_neg hc]
    rw [ih (fun hm => h (List.mem_cons_of_mem c hm))]

lemma removeCTags_id : ∀ (cs : List Char), '<' ∉ cs → removeCTagsAux none cs = cs := by
  intro cs
  induction cs with
  | nil => intro _; rfl
  | cons c rest ih =>
    intro h
    have hc : ¬ c = '<' := fun hx => h (by rw [hx]; exact List.mem_cons_self '<' rest)
    rw [removeCTagsAux_cons_ne c rest hc, ih (fun hm => h (List.mem_cons_of_mem c hm))]

lemma removeCloseC_id : ∀ (cs : List Char), '<' ∉ cs → removeCloseC cs = cs := by
  intro cs
  induction cs with
  | nil => intro _; rfl
  | cons c rest ih =>
    intro h
    have hc : ¬ c = '<' := fun hx => h (by rw [hx]; exact List.mem_cons_self '<' rest)
    rw [removeCloseC_cons_ne c rest hc, ih (fun hm => h (List.mem_cons_of_mem c hm))]

lemma removeMusic_id : ∀ (cs : List Char), '♪' ∉ cs → removeMusicAux none cs = cs := by
  intro cs
  induction cs with
  | nil => intro _; rfl
  | cons c rest ih =>
    intro h
    have hc : ¬ c = '♪' := fun hx => h (by rw [hx]; exact List.mem_cons_self '♪' rest)
    simp only [removeMusicAux, if_neg hc]
    rw [ih (fun hm => h (List.mem_cons_of_mem c hm))]

lemma removeJaMusic_id : ∀ (cs : List Char), '[' ∉ cs → removeJaMusic cs = cs := by
  intro cs
  induction cs with
  | nil => intro _; rfl
  | cons c rest ih =>
    intro h
    have hc : ¬ c = '[' := fun hx => h (by rw [hx]; exact List.mem_cons_self '[' rest)
    rw [removeJaMusic_cons_ne c rest hc, ih (fun hm => h (List.mem_cons_of_mem c hm))]

lemma removeEnMusic_id : ∀ (cs : List Char), '[' ∉ cs → removeEnMusic cs = cs := by
  intro cs
  induction cs with
  | nil => intro _; rfl
  | cons c rest ih =>
    intro h
    have hc : ¬ c = '[' := fun hx => h (by rw [hx]; exact List.mem_cons_self '[' rest)
    rw [removeEnMusic_cons_ne c rest hc, ih (fun hm => h (List.mem_cons_of_mem c hm))]

lemma isInfixL_iff (pat : List Char) : ∀ (l : List Char), isInfixL pat l = true ↔ pat <:+: l := by
  intro l
  induction l with
  | nil =>
    simp only [isInfixL, List.isEmpty_iff, List.infix_nil]
  | cons c rest ih =>
    simp only [isInfixL, Bool.or_eq_true, List.isPrefixOf_iff_prefix, ih,
      List.infix_cons_iff]

lemma pyStrip_infix_self (cs : List Char) : pyStrip cs <:+: cs := by
  unfold pyStrip
  have h1 : cs.dropWhile isPySpace <:+ cs := List.dropWhile_suffix isPySpace
  have h2 : ((cs.dropWhile isPySpace).reverse.dropWhile isPySpace).reverse <+:
      (cs.dropWhile isPySpace) := by
    have h3 : (cs.dropWhile isPySpace).reverse.dropWhile isPySpace <:+
        (cs.dropWhile isPySpace).reverse := List.dropWhile_suffix isPySpace
    have h4 : ((cs.dropWhile isPySpace).reverse.dropWhile isPySpace).reverse <+:
        (cs.dropWhile isPySpace).reverse.reverse := List.reverse_prefix.mpr h3
    rw [List.reverse_reverse] at h4
    exact h4
  exact h2.isInfix.trans h1.isInfix

lemma pyStrip_mem {c : Char} {cs : List Char} (h : c ∈ pyStrip cs) : c ∈ cs :=
  (pyStrip_infix_self cs).sublist.mem h

lemma dropWhile_dropWhile (p : Char → Bool) : ∀ (l : List Char),
    (l.dropWhile p).dropWhile p = l.dropWhile p := by
  intro l
  induction l with
  | nil => rfl
  | cons c rest ih =>
    by_cases hp : p c = true
    · rw [List.dropWhile_cons_of_pos hp, ih]
    · rw [List.dropWhile_cons_of_neg (by simpa using hp),
        List.dropWhile_cons_of_neg (by simpa using hp)]

lemma head_dropWhile_false (p : Char → Bool) : ∀ (l : List Char) (c : Char),
    (l.dropWhile p).head? = some c → p c = false := by
  intro l
  induction l with
  | nil => intro c h; simp at h
  | cons a rest ih =>
    intro c h
    by_cases hp : p a = true
    · rw [List.dropWhile_cons_of_pos hp] at h
      exact ih c h
    · rw [List.dropWhile_cons_of_neg (by simpa using hp)] at h
      simp only [List.head?_cons, Option.some_inj] at h
      subst h
      simpa using hp

lemma dropWhile_eq_self_of_head (p : Char → Bool) (l : List Char)
    (h : ∀ c, l.head? = some c → p c = false) : l.dropWhile p = l := by
  cases l with
  | nil => rfl
  | cons a rest =>
    have := h a (by simp)
    rw [List.dropWhile_cons_of_neg (by simp [this])]

lemma prefix_head? {b a : List Char} (h : b <+: a) (hb : b ≠ []) :
    b.head? = a.head? := by
  obtain ⟨t, rfl⟩ := h
  cases b with
  | nil => exact absurd rfl hb
  | cons x b' => simp

lemma pyStrip_idem (cs : List Char) : pyStrip (pyStrip cs) = pyStrip cs := by
  have hds : (pyStrip cs).dropWhile isPySpace = pyStrip cs := by
    by_cases hb : pyStrip cs = []
    · rw [hb]; rfl
    · apply dropWhile_eq_self_of_head
      intro c hc
      have h2 : pyStrip cs <+: (cs.dropWhile isPySpace) := by
        have h3 : (cs.dropWhile isPySpace).reverse.dropWhile isPySpace <:+
            (cs.dropWhile isPySpace).reverse := List.dropWhile_suffix isPySpace
        have h4 : ((cs.dropWhile isPySpace).reverse.dropWhile isPySpace).reverse <+:
            (cs.dropWhile isPySpace).reverse.reverse := List.reverse_prefix.mpr h3
        rw [List.reverse_reverse] at h4
        exact h4
      have hh := prefix_head? h2 hb
      rw [hc] at hh
      exact head_dropWhile_false isPySpace cs c hh.symm
  show (((pyStrip cs).dropWhile isPySpace).reverse.dropWhile isPySpace).reverse = pyStrip cs
  rw [hds]
  have hrev : (pyStrip cs).reverse = (cs.dropWhile isPySpace).reverse.dropWhile isPySpace := by
    show ((cs.dropWhile isPySpace).reverse.dropWhile isPySpace).reverse.reverse = _
    rw [List.reverse_reverse]
  rw [hrev, dropWhile_dropWhile]
  rfl

lemma cleanVttText_plain (s : String) (h1 : '<' ∉ s.data) (h2 : '♪' ∉ s.data)
    (h3 : '[' ∉ s.data) (h4 : isInfixL "align:".data s.data = false)
    (h5 : isInfixL "position:".data s.data = false) :
    cleanVttText s = stripStr s := by
  unfold cleanVttText removeTags removeTsTags removeCTags removeMusicPairs
  simp only [removeTags_id s.data h1]
  rw [removeTsTags_id s.data h1, removeCTags_id s.data h1, removeCloseC_id s.data h1]
  rw [h4, h5]
  simp only [Bool.or_self, Bool.false_eq_true, if_false]
  rw [removeMusic_id s.data h2, removeJaMusic_id s.data h3, removeEnMusic_id s.data h3]
  rfl

lemma stripStr_plain_transfer (s : String) (h1 : '<' ∉ s.data) (h2 : '♪' ∉ s.data)
    (h3 : '[' ∉ s.data) (h4 : isInfixL "align:".data s.data = false)
    (h5 : isInfixL "position:".data s.data = false) :
    '<' ∉ (stripStr s).data ∧ '♪' ∉ (stripStr s).data ∧ '[' ∉ (stripStr s).data ∧
      isInfixL "align:".data (stripStr s).data = false ∧
      isInfixL "position:".data (stripStr s).data = false := by
  have hdata : (stripStr s).data = pyStrip s.data := rfl
  refine ⟨?_, ?_, ?_, ?_, ?_⟩
  · rw [hdata]; exact fun hm => h1 (pyStrip_mem hm)
  · rw [hdata]; exact fun hm => h2 (pyStrip_mem hm)
  · rw [hdata]; exact fun hm => h3 (pyStrip_mem hm)
  · rw [hdata]
    cases hy : isInfixL "align:".data (pyStrip s.data)
    · rfl
    · have hinf := (isInfixL_iff _ _).mp hy
      have h6 := (isInfixL_iff "align:".data s.data).mpr (hinf.trans (pyStrip_infix_self s.data))
      rw [h6] at h4
      exact absurd h4 (by simp)
  · rw [hdata]
    cases hy : isInfixL "position:".data (pyStrip s.data)
    · rfl
    · have hinf := (isInfixL_iff _ _).mp hy
      have h6 := (isInfixL_iff "position:".data s.data).mpr (hinf.trans (pyStrip_infix_self s.data))
      rw [h6] at h5
      exact absurd h5 (by simp)

lemma lookup_perm : ∀ {l l' : List (String × String)}, l.Perm l' →
    (l.map Prod.fst).Nodup → ∀ k : String, l.lookup k = l'.lookup k := by
  intro l l' p
  induction p with
  | nil => intro _ k; rfl
  | cons x p' ih =>
    intro nd k
    obtain ⟨a, b⟩ := x
    have ndt : ((List.map Prod.fst _).Nodup) := (List.nodup_cons.mp (by simpa using nd)).2
    cases hk : k == a <;> simp only [List.lookup, hk]
    exact ih ndt k
  | swap x y l0 =>
    intro nd k
    obtain ⟨a, b⟩ := x
    obtain ⟨c, d⟩ := y
    have hne : c ≠ a := by
      simp only [List.map_cons, List.nodup_cons, List.mem_cons] at nd
      exact fun h => nd.1 (Or.inl h)
    cases hk1 : k == c <;> cases hk2 : k == a <;>
      simp only [List.lookup, hk1, hk2]
    exact absurd ((beq_iff_eq.mp hk1).symm.trans (beq_iff_eq.mp hk2)) hne
  | trans p1 p2 ih1 ih2 =>
    intro nd k
    have nd2 := ((p1.map Prod.fst).nodup_iff).mp nd
    exact (ih1 nd k).trans (ih2 nd2 k)

lemma selectFromPriority_congr (m m' : String → Option String) : ∀ (order : List String),
    (∀ k ∈ order, m k = m' k) → selectFromPriority m order = selectFromPriority m' order := by
  intro order
  induction order with
  | nil => intro _; rfl
  | cons j rest ih =>
    intro h
    simp only [selectFromPriority, h j (by simp)]
    cases m' j with
    | none => exact ih (fun k hk => h k (by simp [hk]))
    | some v => rfl

lemma selectFromPriority_none_iff (m : String → Option String) : ∀ (order : List String),
    selectFromPriority m order = none ↔ ∀ k ∈ order, m k = none := by
  intro order
  induction order with
  | nil => simp [selectFromPriority]
  | cons j rest ih =>
    cases hj : m j with
    | none =>
      simp only [selectFromPriority, hj, ih]
      constructor
      · intro h k hk
        rcases List.mem_cons.mp hk with h1 | h2
        · subst h1; exact hj
        · exact h k h2
      · intro h k hk
        exact h k (by simp [hk])
    | some v =>
      simp only [selectFromPriority, hj]
      constructor
      · intro h; exact absurd h (by simp)
      · intro h
        exact absurd (h j (by simp)) (by simp [hj])

lemma selectFromPriority_find (m : String → Option String) : ∀ (order : List String) (k : String),
    order.find? (fun j => (m j).isSome) = some k →
    ∃ v, m k = some v ∧
      selectFromPriority m order =
        some (v, (if containsStr "manual" k then "manual" else "auto"),
          (if containsStr "ja" k then "日本語" else "英語")) := by
  intro order
  induction order with
  | nil => intro k h; simp at h
  | cons j rest ih =>
    intro k h
    cases hj : m j with
    | some v =>
      have hfind : j = k := by
        rw [List.find?_cons_of_pos _ (by simp [hj])] at h
        simpa using h
      subst hfind
      exact ⟨v, hj, by simp [selectFromPriority, hj]⟩
    | none =>
      rw [List.find?_cons_of_neg _ (by simp [hj])] at h
      obtain ⟨v, hv, hsel⟩ := ih k h
      exact ⟨v, hv, by simp [selectFromPriority, hj, hsel]⟩

lemma selectFromPriority_isSome (m : String → Option String) : ∀ (order : List String),
    (∃ k ∈ order, (m k).isSome) → (selectFromPriority m order).isSome := by
  intro order
  induction order with
  | nil => rintro ⟨k, hk, _⟩; simp at hk
  | cons j rest ih =>
    rintro ⟨k, hk, hks⟩
    cases hj : m j with
    | some v => simp [selectFromPriority, hj]
    | none =>
      simp only [selectFromPriority, hj]
      apply ih
      rcases List.mem_cons.mp hk with h1 | h2
      · subst h1; rw [hj] at hks; simp at hks
      · exact ⟨k, h2, hks⟩

lemma classifyFile_mem_priority {n k : String} (h : classifyFile n = some k) :
    k ∈ priorityOrder := by
  unfold classifyFile at h
  split_ifs at h <;> simp_all [priorityOrder]

lemma insertKV_keys {vs : List (String × String)} {k v : String} {p : String × String}
    (hp : p ∈ insertKV vs k v) : p.1 = k ∨ p ∈ vs := by
  unfold insertKV at hp
  split_ifs at hp
  · rcases List.mem_map.mp hp with ⟨q, hq, hpq⟩
    by_cases hqk : q.1 = k
    · rw [if_pos hqk] at hpq
      left
      rw [← hpq]
    · rw [if_neg hqk] at hpq
      right
      rw [← hpq]
      exact hq
  · rcases List.mem_append.mp hp with h1 | h2
    · right; exact h1
    · left
      rw [List.mem_singleton.mp h2]

lemma buildFold_keys : ∀ (files : List (String × String)) (vs0 : List (String × String)),
    (∀ p ∈ vs0, p.1 ∈ priorityOrder) →
    ∀ p ∈ files.foldl
      (fun vs f =>
        match classifyFile f.1 with
        | some k => insertKV vs k f.2
        | none => vs) vs0,
      p.1 ∈ priorityOrder := by
  intro files
  induction files with
  | nil => intro vs0 h p hp; exact h p hp
  | cons f rest ih =>
    intro vs0 h p hp
    rw [List.foldl_cons] at hp
    cases hcl : classifyFile f.1 with
    | none =>
      rw [hcl] at hp
      exact ih vs0 h p hp
    | some k =>
      rw [hcl] at hp
      refine ih _ ?_ p hp
      intro q hq
      rcases insertKV_keys hq with h1 | h2
      · rw [h1]; exact classifyFile_mem_priority hcl
      · exact h q h2

lemma buildVariantSet_keys (files : List (String × String)) :
    ∀ p ∈ buildVariantSet files, p.1 ∈ priorityOrder :=
  buildFold_keys files [] (by simp)

lemma parseSubtitleSelect_isSome {vs : List (String × String)} (hne : vs ≠ [])
    (hkeys : ∀ p ∈ vs, p.1 ∈ priorityOrder) :
    (parseSubtitleSelect vs).isSome := by
  unfold parseSubtitleSelect
  apply selectFromPriority_isSome
  cases vs with
  | nil => exact absurd rfl hne
  | cons q rest =>
    refine ⟨q.1, hkeys q (by simp), ?_⟩
    simp [List.lookup]

lemma isJapaneseText_iff_ratio (s : String) :
    isJapaneseText s = true ↔ (3 : ℚ) / 10 * s.data.length < countJaChars s := by
  have hb : isJapaneseText s = true ↔ s.data.length * 3 < countJaChars s * 10 := by
    simp [isJapaneseText]
  rw [hb, div_mul_eq_mul_div, div_lt_iff₀ (by norm_num : (0 : ℚ) < 10)]
  constructor
  · intro h
    have h2 : 3 * s.data.length < countJaChars s * 10 := by omega
    exact_mod_cast h2
  · intro h
    have h2 : 3 * s.data.length < countJaChars s * 10 := by exact_mod_cast h
    omega

lemma flushList_ne (ts : List String) : ∀ s ∈ flushList ts, s ≠ "" := by
  intro s hs
  unfold flushList at hs
  split_ifs at hs with h1 h2
  · rw [List.mem_singleton.mp hs]
    exact h2
  · simp at hs
  · simp at hs

lemma vttScan_ne : ∀ (l : List String) (st : Option (List String)) (s : String),
    s ∈ vttScan st l → s ≠ "" := by
  intro l
  induction l with
  | nil =>
    intro st s hs
    cases st with
    | none => simp [vttScan] at hs
    | some acc => exact flushList_ne acc s hs
  | cons a rest ih =>
    intro st s hs
    cases st with
    | none =>
      simp only [vttScan] at hs
      split_ifs at hs <;> exact ih _ s hs
    | some acc =>
      simp only [vttScan] at hs
      split_ifs at hs with h1 h2
      · rcases List.mem_append.mp hs with hx | hx
        · exact flushList_ne acc s hx
        · exact ih none s hx
      · rcases List.mem_append.mp hs with hx | hx
        · exact flushList_ne acc s hx
        · exact ih (some []) s hx
      · exact ih _ s hs
      · exact ih _ s hs

/-- Claim C1, counterexample: on the input `"ab. cd. ab."` the deduplication
stage of `_clean_and_format_text` leaves the text unchanged, and the
formatter's sentence split of its output contains the sentence `"ab"` twice,
so the output handed to the formatter is not sentence-deduplicated. -/
theorem claim_C1_counterexample :
    sentencesByScript (dedupText "ab. cd. ab.") = ["ab", "cd", "ab"] ∧
      ¬ (sentencesByScript (dedupText "ab. cd. ab.")).Nodup := by
  constructor
  · decide
  · decide

/-- Claim C1, amended: the deduplication stage performs only the
adjacent-word collapse: the whitespace tokens of its output are exactly the
tokens of the whitespace-normalised input with each run of equal adjacent
tokens collapsed to its first occurrence; no sentence-level deduplication
takes place, so exact sentence repeats can survive. -/
theorem claim_C1 (s : String) :
    pyWordsStr (dedupText s) =
      collapseAdjacent (pyWordsStr (stripStr (collapseSpacesStr s))) :=
  dedupText_words s

/-- Claim C2: after the adjacent-word collapse no two consecutive whitespace
tokens of the deduplicated text are equal, and for the two consecutive cues
`"it was a dark"` and `"dark and stormy night"` of scenario A the
deduplicated body is exactly `"it was a dark and stormy night"`. -/
theorem claim_C2 :
    (∀ s : String, List.Chain' (fun a b => a ≠ b) (pyWordsStr (dedupText s))) ∧
      dedupText (joinSpaceStr (segmentsOfVtt scenarioVtt)) =
        "it was a dark and stormy night" := by
  constructor
  · exact dedupText_chain
  · rw [segmentsOfVtt_eq_scan]
    decide

/-- Claim C2, witness instance at a concrete input. -/
theorem claim_C2_witness :
    List.Chain' (fun a b => a ≠ b) (pyWordsStr (dedupText "a a b")) :=
  claim_C2.1 "a a b"

/-- Claim C5, counterexample: the sentence `"ですが"` merely CONTAINS the
marker `"です"` without ending in it, yet `_format_japanese_text` closes a
paragraph after it, because the code tests `ending in sentence` (substring)
rather than the claimed suffix condition. -/
theorem claim_C5_counterexample :
    formatJapaneseText "ですが。続き。" = "ですが。\n続き。" ∧
      formatJapaneseTextEndsWith "ですが。続き。" = "ですが。続き。" ∧
      formatJapaneseText "ですが。続き。" ≠ formatJapaneseTextEndsWith "ですが。続き。" := by
  refine ⟨by decide, by decide, by decide⟩

/-- Claim C5, amended: in native-script formatting a paragraph is closed
exactly when the group has reached 3 sentences or the current sentence
CONTAINS one of the fixed markers as a substring: every group has at most 3
sentences, sentences before the last of a group never contain a marker, every
group except possibly the trailing flush satisfies the closing condition, and
the output joins sentences with the ideographic period and paragraphs with a
single newline. -/
theorem claim_C5 (t : String) :
    (∀ g ∈ japaneseGroups t, g ≠ [] ∧ g.length ≤ 3 ∧
      ∀ j, j + 1 < g.length → hasJaEnding (g.getD j "") = false) ∧
    (∀ i, i + 1 < (japaneseGroups t).length →
      ((japaneseGroups t).getD i []).length = 3 ∨
        hasJaEnding (((japaneseGroups t).getD i []).getLastD "") = true) ∧
    formatJapaneseText t =
      joinSepStr "\n" ((japaneseGroups t).map (fun g => joinSepStr "。" g ++ "。")) := by
  refine ⟨?_, ?_, rfl⟩
  · intro g hg
    obtain ⟨h1, h2⟩ := japaneseGo_groups_shape (jaRawSentences t) [] (by simp) (by simp) g hg
    exact ⟨japaneseGo_groups_ne (jaRawSentences t) [] g hg, h1, h2⟩
  · exact japaneseGo_closed (jaRawSentences t) [] (by simp)

/-- Claim C5, witness instance at a concrete input. -/
theorem claim_C5_witness :
    (["ああ"] : List String) ≠ [] ∧ (["ああ"] : List String).length ≤ 3 := by
  have h := (claim_C5 "ああ。").1 ["ああ"] (by decide)
  exact ⟨h.1, h.2.1⟩

/-- Claim C6, counterexample: the Latin-script formatter capitalizes the
first letter of each sentence, so concatenating the output paragraphs of the
input `"ab"` yields `["Ab"]`, which does not reproduce the input sentence
sequence `["ab"]` exactly. -/
theorem claim_C6_counterexample :
    (englishGroups "ab").flatten = ["Ab"] ∧
      nonEmptyStripped (enRawSentences "ab") = ["ab"] ∧
      (englishGroups "ab").flatten ≠ nonEmptyStripped (enRawSentences "ab") := by
  refine ⟨by decide, by decide, by decide⟩

/-- Claim C6, amended: concatenating the sentence groups of the native-script
formatter reproduces the non-empty trimmed input sentences exactly and in
order, and no paragraph is empty; for the Latin-script formatter the same
holds up to capitalization of each sentence's first letter. -/
theorem claim_C6 (t : String) :
    (japaneseGroups t).flatten = nonEmptyStripped (jaRawSentences t) ∧
      (∀ g ∈ japaneseGroups t, g ≠ []) ∧
      (englishGroups t).flatten = (nonEmptyStripped (enRawSentences t)).map capFirstStr ∧
      (∀ g ∈ englishGroups t, g ≠ []) := by
  refine ⟨?_, ?_, ?_, ?_⟩
  · have h := japaneseGo_flatten (jaRawSentences t) []
    simpa using h
  · exact japaneseGo_groups_ne (jaRawSentences t) []
  · have h := englishGo_flatten (enRawSentences t) []
    simpa using h
  · exact englishGo_groups_ne (enRawSentences t) []

/-- Claim C6, witness instance at a concrete input. -/
theorem claim_C6_witness : (["Ab"] : List String) ≠ [] :=
  (claim_C6 "ab").2.2.2 ["Ab"] (by decide)

/-- Claim C7: script classification is native exactly when the
Japanese-script character count exceeds 30% of all characters, a pure
function of character composition; a 40% sample classifies as native script
and a 20% sample as Latin script. -/
theorem claim_C7 :
    (∀ s : String, isJapaneseText s = true ↔
      (3 : ℚ) / 10 * s.data.length < countJaChars s) ∧
      isJapaneseText "あい123" = true ∧ isJapaneseText "あ1234" = false := by
  refine ⟨isJapaneseText_iff_ratio, by decide, by decide⟩

/-- Claim C7, witness instance at a concrete input. -/
theorem claim_C7_witness :
    isJapaneseText "あい123" = true ↔
      (3 : ℚ) / 10 * ("あい123" : String).data.length < countJaChars "あい123" :=
  claim_C7.1 "あい123"

/-- Claim C8: the cue scan of `_extract_text_from_vtt` is total (the
cursor-decrement backtrack steps back at most one line, which the bundled
bound in `collectCue` records, so the loop always progresses) and every
collected segment is non-empty; a malformed timing line is skipped and
parsing continues with later well-formed cues. -/
theorem claim_C8 :
    (∀ (vtt : String), ∀ s ∈ segmentsOfVtt vtt, s ≠ "") ∧
      segmentsOfVtt
        "WEBVTT\n\n0:00:00.000 --> bad\nlost text\n\n00:00:01.000 --> 00:00:02.000\nkept text\n" =
        ["kept text"] := by
  constructor
  · intro vtt s hs
    rw [segmentsOfVtt_eq_scan] at hs
    exact vttScan_ne _ none s hs
  · rw [segmentsOfVtt_eq_scan]
    decide

/-- Claim C8, witness instance at a concrete input. -/
theorem claim_C8_witness : ("kept text" : String) ≠ "" :=
  claim_C8.1
    "WEBVTT\n\n0:00:00.000 --> bad\nlost text\n\n00:00:01.000 --> 00:00:02.000\nkept text\n"
    "kept text" (by rw [segmentsOfVtt_eq_scan]; decide)

/-- Claim C9, counterexample: `_clean_vtt_text` is not idempotent: removing
`[Music]` from `"[音[Music]楽]"` synthesizes the marker `"[音楽]"`, which
only a second application removes. -/
theorem claim_C9_counterexample :
    cleanVttText "[音[Music]楽]" = "[音楽]" ∧
      cleanVttText (cleanVttText "[音[Music]楽]") = "" ∧
      cleanVttText (cleanVttText "[音[Music]楽]") ≠ cleanVttText "[音[Music]楽]" := by
  refine ⟨by decide, by decide, by decide⟩

/-- Claim C9, amended: the line cleaner is idempotent on every line free of
the markup trigger characters `<`, `♪`, `[` and of `align:`/`position:`
directives, where it reduces to whitespace trimming; on other lines a second
application can differ because marker removal may synthesize new removable
patterns. -/
theorem claim_C9 (s : String) (h1 : '<' ∉ s.data) (h2 : '♪' ∉ s.data)
    (h3 : '[' ∉ s.data) (h4 : isInfixL "align:".data s.data = false)
    (h5 : isInfixL "position:".data s.data = false) :
    cleanVttText (cleanVttText s) = cleanVttText s := by
  have hca := cleanVttText_plain s h1 h2 h3 h4 h5
  obtain ⟨t1, t2, t3, t4, t5⟩ := stripStr_plain_transfer s h1 h2 h3 h4 h5
  rw [hca, cleanVttText_plain _ t1 t2 t3 t4 t5]
  show String.mk (pyStrip (pyStrip s.data)) = String.mk (pyStrip s.data)
  exact congrArg String.mk (pyStrip_idem s.data)

/-- Claim C9, witness instance at a concrete input. -/
theorem claim_C9_witness :
    cleanVttText (cleanVttText " a b ") = cleanVttText " a b " :=
  claim_C9 " a b " (by decide) (by decide) (by decide) (by decide) (by decide)

/-- Claim C10: duration formatting renders seconds-only below one minute,
minutes and seconds below one hour, and hours, minutes and seconds otherwise,
via integer division and modulo with no zero padding; `0` renders as `0秒`,
`65` as `1分5秒` and `3661` as `1時間1分1秒`. -/
theorem claim_C10 :
    (∀ n : Nat, n < 60 → formatDuration n = toString n ++ "秒") ∧
      (∀ n : Nat, 60 ≤ n → n < 3600 →
        formatDuration n = toString (n / 60) ++ "分" ++ toString (n % 60) ++ "秒") ∧
      (∀ n : Nat, 3600 ≤ n →
        formatDuration n = toString (n / 3600) ++ "時間" ++
          toString ((n % 3600) / 60) ++ "分" ++ toString (n % 60) ++ "秒") ∧
      formatDuration 0 = "0秒" ∧ formatDuration 65 = "1分5秒" ∧
      formatDuration 3661 = "1時間1分1秒" := by
  refine ⟨?_, ?_, ?_, by decide, by decide, by decide⟩
  · intro n h
    unfold formatDuration
    rw [if_pos h]
  · intro n h1 h2
    unfold formatDuration
    rw [if_neg (by omega), if_pos h2]
  · intro n h
    unfold formatDuration
    rw [if_neg (by omega), if_neg (by omega)]

/-- Claim C10, witness instance at a concrete input. -/
theorem claim_C10_witness :
    formatDuration 65 = toString (65 / 60) ++ "分" ++ toString (65 % 60) ++ "秒" :=
  claim_C10.2.1 65 (by decide) (by decide)

/-- Claim C3: variant selection is determined by key membership alone
(invariant under any reordering of the variant set with distinct keys), fails
with `NoSubtitleAvailable` exactly when no priority key is present, and
returns the variant of the first priority key present together with kind
`manual` exactly when the key contains `manual` and the Japanese/English
display label according to whether the key contains `ja`. -/
theorem claim_C3 (vs vs' : List (String × String))
    (hnd : (vs.map Prod.fst).Nodup) (hperm : vs.Perm vs') :
    parseSubtitleSelect vs = parseSubtitleSelect vs' ∧
      (parseSubtitleSelect vs = none ↔ ∀ k ∈ priorityOrder, vs.lookup k = none) ∧
      (∀ k v, priorityOrder.find? (fun j => (vs.lookup j).isSome) = some k →
        vs.lookup k = some v →
        parseSubtitleSelect vs =
          some (v, (if containsStr "manual" k then "manual" else "auto"),
            (if containsStr "ja" k then "日本語" else "英語"))) := by
  refine ⟨?_, ?_, ?_⟩
  · exact selectFromPriority_congr _ _ priorityOrder
      (fun k _ => lookup_perm hperm hnd k)
  · exact selectFromPriority_none_iff _ priorityOrder
  · intro k v hfind hlook
    obtain ⟨v', hv', hsel⟩ :=
      selectFromPriority_find (fun j => vs.lookup j) priorityOrder k hfind
    have hv2 : v' = v := by
      rw [hlook] at hv'
      exact (Option.some_inj.mp hv').symm
    show selectFromPriority (fun j => vs.lookup j) priorityOrder = _
    rw [hsel, hv2]

/-- Claim C3, witness: scenario B, a variant set holding only `auto_en`
selects the automatic English variant. -/
theorem claim_C3_witness :
    parseSubtitleSelect [("auto_en", "c1")] = some ("c1", "auto", "英語") := by
  have h := claim_C3 [("auto_en", "c1")] [("auto_en", "c1")] (by decide) (List.Perm.refl _)
  exact h.2.2 "auto_en" "c1" (by decide) (by decide)

/-- Claim C4, counterexample: a variant whose content parses to zero
segments (a bare `WEBVTT` header) does NOT make the pipeline fail: it
returns a transcript document with an empty body instead of signalling
`EmptyTranscript`/`NoSubtitleAvailable`. -/
theorem claim_C4_counterexample :
    segmentsOfVtt "WEBVTT" = [] ∧
      transcriptPipeline [("a.ja.vtt", "WEBVTT")] =
        Except.ok ⟨"", "日本語", "manual"⟩ := by
  have hseg : segmentsOfVtt "WEBVTT" = [] := by
    rw [segmentsOfVtt_eq_scan]
    decide
  refine ⟨hseg, ?_⟩
  have hx : extractTextFromVtt "WEBVTT" = "" := by
    unfold extractTextFromVtt
    rw [hseg]
    decide
  have hb : findSubtitleFiles [("a.ja.vtt", "WEBVTT")] =
      Except.ok [("manual_ja", "WEBVTT")] := rfl
  have hsel : parseSubtitleSelect [("manual_ja", "WEBVTT")] =
      some ("WEBVTT", "manual", "日本語") := by
    decide
  have hpf : parseSubtitleFile [("manual_ja", "WEBVTT")] =
      Except.ok ⟨extractTextFromVtt "WEBVTT", "日本語", "manual"⟩ := by
    unfold parseSubtitleFile
    rw [hsel]
  unfold transcriptPipeline
  rw [hb]
  rw [hx] at hpf
  exact hpf

/-- Claim C4, amended: the pipeline fails exactly when the variant set is
empty (`NoSubtitlesFound`); `NoSubtitleAvailable` is unreachable from the
pipeline because every key the file scan builds is a priority key, although
selection on an arbitrary variant set fails with it exactly when no priority
key is present; zero non-empty segments yield a successful document with an
empty body rather than a failure. -/
theorem claim_C4 (files : List (String × String)) :
    (transcriptPipeline files = Except.error SubtitleError.noSubtitlesFound ↔
        buildVariantSet files = []) ∧
      transcriptPipeline files ≠ Except.error SubtitleError.noSubtitleAvailable ∧
      (∀ vs : List (String × String),
        parseSubtitleFile vs = Except.error SubtitleError.noSubtitleAvailable ↔
          ∀ k ∈ priorityOrder, vs.lookup k = none) := by
  have hparse : ∀ vs : List (String × String),
      parseSubtitleFile vs = Except.error SubtitleError.noSubtitleAvailable ↔
        ∀ k ∈ priorityOrder, vs.lookup k = none := by
    intro vs
    constructor
    · intro h
      cases hsel : parseSubtitleSelect vs with
      | none => exact (selectFromPriority_none_iff _ priorityOrder).mp hsel
      | some r =>
        obtain ⟨v, kd, lg⟩ := r
        unfold parseSubtitleFile at h
        rw [hsel] at h
        exact absurd h (by simp)
    · intro h
      have hnone : parseSubtitleSelect vs = none :=
        (selectFromPriority_none_iff (fun k => vs.lookup k) priorityOrder).mpr h
      unfold parseSubtitleFile
      rw [hnone]
  by_cases hb : buildVariantSet files = []
  · have hpipe : transcriptPipeline files = Except.error SubtitleError.noSubtitlesFound := by
      unfold transcriptPipeline findSubtitleFiles
      simp only [hb, if_pos rfl, if_true]
    refine ⟨⟨fun _ => hb, fun _ => hpipe⟩, ?_, hparse⟩
    rw [hpipe]
    intro h
    have := Except.error.inj h
    exact absurd this (by simp)
  · have hok : findSubtitleFiles files = Except.ok (buildVariantSet files) := by
      unfold findSubtitleFiles
      simp only [hb, if_neg, if_false]
    have hsome := parseSubtitleSelect_isSome hb (buildVariantSet_keys files)
    obtain ⟨r, hr⟩ := Option.isSome_iff_exists.mp hsome
    obtain ⟨v, kd, lg⟩ := r
    have hpf : parseSubtitleFile (buildVariantSet files) =
        Except.ok ⟨extractTextFromVtt v, lg, kd⟩ := by
      unfold parseSubtitleFile
      rw [hr]
    have hpipe : transcriptPipeline files = Except.ok ⟨extractTextFromVtt v, lg, kd⟩ := by
      unfold transcriptPipeline
      rw [hok]
      exact hpf
    refine ⟨?_, ?_, hparse⟩
    · rw [hpipe]
      constructor
      · intro h
        exact absurd h (by simp)
      · intro h
        exact absurd h hb
    · rw [hpipe]
      simp

/-- Claim C4, witness: scenario C, the empty file set fails with
`NoSubtitlesFound`. -/
theorem claim_C4_witness :
    transcriptPipeline [] = Except.error SubtitleError.noSubtitlesFound :=
  (claim_C4 []).1.mpr rfl
